import Mathlib

/-!
# Verification of the McSAS Monte Carlo optimizer core

A shallow embedding of the optimization core of `McSAS.py` (class `McSAS`
plus `ParticleModel`/`Sphere`/`McSASParameters`), with theorems settling the
behavioural claims about seeding, the retry policy, the incremental state
updates, the low-memory execution mode, setup validation, the histogram
observability curve, and the treatment of a supplied prior.

Machine floats are modelled by exact arithmetic: `ℚ` where every operation of
the modelled code is rational, `ℝ` where the code uses `sqrt` or `pi`.
Random draws (`numpy.random.*`) are passed in explicitly as streams/lists.
-/

/-! ## Parameter rows and prior-based seeding (`McSAS.mcFit`, lines 1186-1222) -/

/-- One contribution's shape-parameter vector: a row of `rset`. -/
abbrev ParamRow := List ℚ

/-- The initial-contribution-set dispatch of `McSAS.mcFit` (lines 1193-1222),
for the case that a prior is supplied or plain uniform sampling is used
(`startFromMinimum` is embedded separately as `mcFitSeedFromMinimum`).

* `prior` is `McSASParameters.prior` (`size(prior) == 0` iff it has no rows);
* `randomSet` stands for the draw `self.model.randUniform(numContribs)`;
* `randomIndices` stands for the draw `numpy.random.randint(prior.shape[0], size = ...)`.

Returns the resulting `rset` together with the (possibly reassigned) local
`numContribs`.  The branch chain is kept exactly as in the source:

```
if size(prior) == 0:            rset = self.model.randUniform(numContribs)
elif prior.shape[0] != 0:       numContribs = prior.shape[0]; rset = prior
elif prior.shape[0] == numContribs:  rset = prior
elif prior.shape[0] < numContribs:   rset = concatenate((prior, prior[randomIndices]))
elif prior.shape[0] > numContribs:   rset = prior[randomIndices]
```
-/
def mcFitSeed (prior : List ParamRow) (numContribs : ℕ)
    (randomSet : List ParamRow) (randomIndices : List ℕ) :
    List ParamRow × ℕ :=
  if prior.length = 0 then
    (randomSet, numContribs)
  else if prior.length ≠ 0 then
    (prior, prior.length)
  else if prior.length = numContribs then
    (prior, numContribs)
  else if prior.length < numContribs then
    (prior ++ (randomIndices.take (numContribs - prior.length)).map
        (fun i => prior.getD i []), numContribs)
  else
    ((randomIndices.take numContribs).map (fun i => prior.getD i []), numContribs)

/-! ## The retry loop of `McSAS.analyse` (lines 1126-1145) -/

/-- One repetition's retry `while` loop in `McSAS.analyse`:

```
nt = 0
convergence = inf
while convergence > McSASParameters.convergenceCriterion:
    nt += 1
    (..., convergence, details) = self.mcFit(...)
    if nt > maxRetries:
        logging.warning(...); return
```

`mcFitConval nt` is the convergence value returned by the `nt`-th `mcFit`
attempt (each attempt re-enters seeding; in the source that value is the one
recomputed by the final `optimScalingAndBackground` pass, line 1368).
`Sum.inl (conval, nt)` models a normal exit of the `while` loop after `nt`
attempts; `Sum.inr nt` models the early `return` (a logged warning, no
exception, no result record) after `nt` attempts.  The recursion is run with
enough fuel that the fuel bound is never the reason for stopping. -/
def analyseLoopGo (criterion : ℚ) (maxRetries : ℕ) (mcFitConval : ℕ → ℚ) :
    ℕ → ℕ → Sum (ℚ × ℕ) ℕ
  | nt, 0 => Sum.inr nt
  | nt, fuel + 1 =>
    let nt1 := nt + 1
    let conval := mcFitConval nt1
    if maxRetries < nt1 then Sum.inr nt1
    else if conval ≤ criterion then Sum.inl (conval, nt1)
    else analyseLoopGo criterion maxRetries mcFitConval nt1 fuel

/-- The retry loop for one repetition, entered with `nt = 0`. -/
def analyseRep (criterion : ℚ) (maxRetries : ℕ) (mcFitConval : ℕ → ℚ) :
    Sum (ℚ × ℕ) ℕ :=
  analyseLoopGo criterion maxRetries mcFitConval 0 (maxRetries + 2)

/-- The outer repetitions loop of `McSAS.analyse` (lines 1120-1164): the
result record (`self.result.append(...)`, line 1158) is produced only when
every repetition's retry loop exits normally; any early `return` aborts the
whole run with no record.  Each entry of the returned list is a repetition's
stored `(convergence, attempts)`. -/
def analyseAllReps (criterion : ℚ) (maxRetries : ℕ) :
    List (ℕ → ℚ) → Option (List (ℚ × ℕ))
  | [] => some []
  | f :: rest =>
    match analyseRep criterion maxRetries f with
    | Sum.inl s => (analyseAllReps criterion maxRetries rest).map (fun l => s :: l)
    | Sum.inr _ => none

/-! ## Running totals of compensated volume squared (`McSAS.mcFit`) -/

/-- `sum(vset**2)` — the from-scratch total of compensated volumes squared
(lines 1230, 1241, 1366, 1502: `vst = sum(vset**2)  # total volume squared`). -/
def vstTotal (vset : List ℝ) : ℝ := (vset.map (fun v => v ^ 2)).sum

/-- The candidate running total computed in every ITERATING step,
line 1301: `vstest = (sqrt(vst) - vset[ri])**2 + vtt**2`. -/
noncomputable def vstestUpdate (vst vri vtt : ℝ) : ℝ :=
  (Real.sqrt vst - vri) ^ 2 + vtt ^ 2

/-! ## Claim theorems (first group) -/

/-- C1: the claim states that with a supplied non-empty prior of `p` rows and
target `numContribs = N`, the seeded set always has exactly `N` rows (prior
reused for `p = N`, duplicated for `p < N`, subsampled for `p > N`).  On the
code this fails: the guard `prior.shape[0] != 0` (line 1202) is true for every
non-empty prior, so the duplication/subsampling branches below it are dead and
the prior is taken over wholesale, overriding `numContribs`.  Evaluated at the
spec's own scenario (300 prior rows, `numContribs = 200`) the seeded set has
300 rows, not 200. -/
theorem mcFitSeed_keeps_all_prior_rows :
    (mcFitSeed (List.replicate 300 ([0] : ParamRow)) 200 [] []).1.length = 300 ∧
    (mcFitSeed (List.replicate 300 ([0] : ParamRow)) 200 [] []).2 = 300 ∧
    (300 : ℕ) ≠ 200 := by
  have hlen : (List.replicate 300 ([0] : ParamRow)).length = 300 :=
    List.length_replicate 300 _
  have hne : (List.replicate 300 ([0] : ParamRow)).length ≠ 0 := by
    rw [hlen]; decide
  have hbranch : mcFitSeed (List.replicate 300 ([0] : ParamRow)) 200 [] [] =
      (List.replicate 300 ([0] : ParamRow),
       (List.replicate 300 ([0] : ParamRow)).length) := by
    rw [mcFitSeed, if_neg hne, if_pos hne]
  rw [hbranch]
  exact ⟨hlen, hlen, by decide⟩

/-- Helper for C2: once the retry loop is entered with attempt counter
`nt ≤ maxRetries` and enough fuel, an early give-up (`Sum.inr`) happens after
exactly `maxRetries + 1` attempts. -/
theorem analyseLoopGo_inr (criterion : ℚ) (maxRetries : ℕ) (f : ℕ → ℚ) :
    ∀ fuel nt n, nt ≤ maxRetries → maxRetries + 1 ≤ nt + fuel →
      analyseLoopGo criterion maxRetries f nt fuel = Sum.inr n →
      n = maxRetries + 1 := by
  intro fuel
  induction fuel with
  | zero =>
    intro nt n hle hfuel _
    omega
  | succ fuel ih =>
    intro nt n hle hfuel h
    rw [analyseLoopGo] at h
    by_cases hgt : maxRetries < nt + 1
    · rw [if_pos hgt] at h
      have hn : nt + 1 = n := Sum.inr.inj h
      omega
    · rw [if_neg hgt] at h
      by_cases hc : f (nt + 1) ≤ criterion
      · rw [if_pos hc] at h
        exact absurd h (by simp)
      · rw [if_neg hc] at h
        exact ih (nt + 1) n (by omega) (by omega) h

/-- C2 (amended): while convergence is not reached the loop re-enters
seeding by calling `mcFit` again, but the bound check `nt > maxRetries` runs
after every attempt regardless of that attempt's outcome, so `analyse` gives
up after exactly `maxRetries + 1` total attempts (not `maxRetries + 2` as its
own warning message claims); it raises no exception — it logs a warning and
returns, producing no result record. -/
theorem analyseRep_gives_up_after_maxRetries_succ
    (criterion : ℚ) (maxRetries : ℕ) (f : ℕ → ℚ) (n : ℕ)
    (h : analyseRep criterion maxRetries f = Sum.inr n) :
    n = maxRetries + 1 :=
  analyseLoopGo_inr criterion maxRetries f (maxRetries + 2) 0 n
    (Nat.zero_le _) (by omega) h

/-- Witness for the C2 amended theorem at `criterion = 1`, `maxRetries = 0`
and a stream of attempts that never converges. -/
theorem analyseRep_gives_up_witness : (1 : ℕ) = 0 + 1 :=
  analyseRep_gives_up_after_maxRetries_succ 1 0 (fun _ => 2) 1 (by decide)

/-- C2 counterexample: with `maxRetries = 0` and `criterion = 1`, an attempt
stream whose first attempt fails (`conval = 2`) and whose second attempt would
converge (`conval = 0 ≤ 1`) is aborted after a single attempt: the claim's
`maxRetries + 2 = 2` attempts are never made, and the abort is a plain return
(`Sum.inr`), not a raised `OptimizationFailed`. -/
theorem analyseRep_aborts_before_second_attempt :
    analyseRep 1 0 (fun n => if n = 1 then 2 else 0) = Sum.inr 1 ∧
    (fun n => if n = 1 then 2 else 0) 2 ≤ (1 : ℚ) ∧
    (1 : ℕ) ≠ 0 + 2 := by
  refine ⟨by decide, by norm_num, by decide⟩

/-- Helper for C5: a normal exit of the retry loop carries a convergence
value that satisfies the criterion (the `while` condition). -/
theorem analyseLoopGo_inl (criterion : ℚ) (maxRetries : ℕ) (f : ℕ → ℚ) :
    ∀ fuel nt c n,
      analyseLoopGo criterion maxRetries f nt fuel = Sum.inl (c, n) →
      c ≤ criterion := by
  intro fuel
  induction fuel with
  | zero =>
    intro nt c n h
    exact absurd h (by simp [analyseLoopGo])
  | succ fuel ih =>
    intro nt c n h
    rw [analyseLoopGo] at h
    by_cases hgt : maxRetries < nt + 1
    · rw [if_pos hgt] at h
      exact absurd h (by simp)
    · rw [if_neg hgt] at h
      by_cases hc : f (nt + 1) ≤ criterion
      · rw [if_pos hc] at h
        have : f (nt + 1) = c := by
          have := h
          simp only [Sum.inl.injEq, Prod.mk.injEq] at this
          exact this.1
        rwa [this] at hc
      · rw [if_neg hc] at h
        exact ih (nt + 1) c n h

/-- C5: if the run completes successfully — `analyse` produces a result
record, which requires every repetition's retry loop to exit normally — then
the stored final convergence value of every repetition (the reduced
chi-square recomputed by the final `optimScalingAndBackground` pass of
`mcFit`, line 1368, which is exactly the value the `while` condition of
`analyse` tests) is at most the convergence criterion. -/
theorem analyse_success_conval_le_criterion
    (criterion : ℚ) (maxRetries : ℕ) (reps : List (ℕ → ℚ))
    (lst : List (ℚ × ℕ))
    (h : analyseAllReps criterion maxRetries reps = some lst) :
    ∀ s ∈ lst, s.1 ≤ criterion := by
  induction reps generalizing lst with
  | nil =>
    simp only [analyseAllReps, Option.some.injEq] at h
    subst h
    intro s hs
    exact absurd hs (by simp)
  | cons f rest ih =>
    simp only [analyseAllReps] at h
    cases hrep : analyseRep criterion maxRetries f with
    | inl s0 =>
      rw [hrep] at h
      cases hrest : analyseAllReps criterion maxRetries rest with
      | none => rw [hrest] at h; exact absurd h (by simp)
      | some l0 =>
        rw [hrest] at h
        simp only [Option.map_some', Option.some.injEq] at h
        subst h
        intro s hs
        rcases List.mem_cons.mp hs with h1 | h2
        · subst h1
          exact analyseLoopGo_inl criterion maxRetries f (maxRetries + 2) 0 s.1 s.2
            (by simpa [analyseRep] using hrep)
        · exact ih l0 hrest s h2
    | inr n =>
      rw [hrep] at h
      exact absurd h (by simp)

/-- Witness for C5 at one repetition whose first attempt converges
(`maxRetries = 1`, so the post-attempt bound check does not fire). -/
theorem analyse_success_witness : (0 : ℚ) ≤ 1 :=
  analyse_success_conval_le_criterion 1 1 [fun _ => 0] [(0, 1)] (by decide)
    (0, 1) (by simp)

/-- C3: the claim states the candidate running total is
`vstNew = vst - v[ri]^2 + vTrial^2`, keeping the committed total equal to the
from-scratch `sum(vset**2)`.  The code instead computes
`vstest = (sqrt(vst) - vset[ri])**2 + vtt**2` (line 1301), which contradicts
the source's own documentation of `vst` (`# total volume squared`, lines
1230/1241) and its own from-scratch recomputation `sum(vset**2)` at line 1366.
Evaluated at `vset = [3, 4]` (`vst = 25`), replaced index `0`, trial volume
`1`: the code commits `(√25 - 3)^2 + 1^2 = 5`, while the from-scratch total of
the updated set `[1, 4]` is `17`. -/
theorem vstestUpdate_breaks_total_invariant :
    vstTotal [3, 4] = 25 ∧
    vstestUpdate (vstTotal [3, 4]) 3 1 = 5 ∧
    vstTotal (([3, 4] : List ℝ).set 0 1) = 17 ∧
    vstestUpdate (vstTotal [3, 4]) 3 1 ≠ vstTotal (([3, 4] : List ℝ).set 0 1) := by
  have h25 : vstTotal [3, 4] = 25 := by
    simp [vstTotal]
    norm_num
  have hsqrt : Real.sqrt 25 = 5 := by
    rw [show (25 : ℝ) = 5 ^ 2 by norm_num]
    exact Real.sqrt_sq (by norm_num)
  have h5 : vstestUpdate (vstTotal [3, 4]) 3 1 = 5 := by
    rw [h25, vstestUpdate, hsqrt]
    norm_num
  have h17 : vstTotal (([3, 4] : List ℝ).set 0 1) = 17 := by
    simp [vstTotal]
    norm_num
  exact ⟨h25, h5, h17, by rw [h5, h17]; norm_num⟩

/-! ## Incremental total-intensity update (`McSAS.mcFit`, lines 1225-1312) -/

/-- `ParticleModel.smear` (McSAS.py lines 122-123): returns the input
unchanged (the smearing hook is a passthrough in this model hierarchy). -/
def smear {α : Type _} (arg : α) : α := arg

/-- The candidate total intensity of an ITERATING step, line 1293 followed by
line 1300: `itest = it - iset[:, ri] + itt` then `itest = self.model.smear(itest)`.
The curve type is any additive commutative group (instantiated with pointwise
operations on per-q curves). -/
def itestUpdate {α : Type _} [AddCommGroup α] (it iri itt : α) : α :=
  smear (it - iri + itt)

/-- Sum of a list after replacing one element, in any additive commutative
group. -/
theorem list_sum_set {α : Type _} [AddCommGroup α] :
    ∀ (l : List α) (ri : ℕ), ri < l.length → ∀ a : α,
      (l.set ri a).sum = l.sum - l.getD ri 0 + a := by
  intro l
  induction l with
  | nil => intro ri h; exact absurd h (by simp)
  | cons x xs ih =>
    intro ri h a
    cases ri with
    | zero =>
      simp only [List.set, List.sum_cons, List.getD_cons_zero]
      abel
    | succ n =>
      have hlt : n < xs.length := by
        simpa using h
      simp only [List.set, List.sum_cons, List.getD_cons_succ, ih n hlt a]
      abel

/-- C4: after an accepted replacement the incrementally maintained total
intensity (`it - iset[:, ri] + itt`, with `iset[:, ri]` then overwritten by
`itt`, lines 1293/1310/1312) equals the from-scratch sum of the
per-contribution intensities of the updated contribution set.  The equality is
exact in the exact-arithmetic model, hence in particular within the claimed
relative tolerance of 1e-9. -/
theorem incremental_intensity_total {α : Type _} [AddCommGroup α]
    (iset : List α) (ri : ℕ) (hri : ri < iset.length) (it itt : α)
    (hit : it = iset.sum) :
    itestUpdate it (iset.getD ri 0) itt = (iset.set ri itt).sum := by
  rw [itestUpdate, smear, hit, list_sum_set iset ri hri itt]

/-- Witness for C4 with two contributions over `ℚ`: `iset = [1, 2]`,
`it = 3`, trial intensity `5` replacing index `0`. -/
theorem incremental_intensity_total_witness :
    itestUpdate (3 : ℚ) (([1, 2] : List ℚ).getD 0 0) 5 =
      (([1, 2] : List ℚ).set 0 5).sum :=
  incremental_intensity_total [1, 2] 0 (by decide) 3 5
    (by norm_num [List.sum_cons, List.sum_nil])

/-! ## "Start from minimum" seeding (`McSAS.mcFit`, lines 1193-1199) -/

/-- The value written into every entry of column `idx` of `rset` when
`startFromMinimum` is set (lines 1195-1199):

```
mb = min(param.valueRange)
if mb == 0:
    mb = pi / q.max()
rset[:, idx] = numpy.ones(numContribs) * mb * .5
```
-/
noncomputable def startFromMinimumValue (valueRange : ℝ × ℝ) (qmax : ℝ) : ℝ :=
  (if min valueRange.1 valueRange.2 = 0 then Real.pi / qmax
   else min valueRange.1 valueRange.2) * 0.5

/-- The full seeded `rset` under `startFromMinimum`: every one of the
`numContribs` rows carries `startFromMinimumValue` of the corresponding
parameter (column-constant assignment, line 1199). -/
noncomputable def mcFitSeedFromMinimum (params : List (ℝ × ℝ)) (numContribs : ℕ)
    (qmax : ℝ) : List (List ℝ) :=
  List.replicate numContribs (params.map (fun p => startFromMinimumValue p qmax))

/-- `getD` of a replicated list below its length. -/
theorem list_getD_replicate {α : Type _} (n : ℕ) (a d : α) (i : ℕ) (h : i < n) :
    (List.replicate n a).getD i d = a := by
  rw [List.getD_eq_getElem _ d (by simpa using h), List.getElem_replicate]

/-- C7 counterexample: with a single parameter of range `(2, 10)` (lower
non-zero bound `2`), one contribution and `q.max() = 1`, the seeded value is
`1 = 2 * 0.5`, not the lower bound `2` as the claim states. -/
theorem startFromMinimum_halves_bound :
    mcFitSeedFromMinimum [((2 : ℝ), 10)] 1 1 = [[1]] ∧ ((1 : ℝ) ≠ 2) := by
  constructor
  · rw [mcFitSeedFromMinimum]
    have hmin : min (2 : ℝ) 10 = 2 := by norm_num
    have hv : startFromMinimumValue ((2 : ℝ), 10) 1 = 1 := by
      rw [startFromMinimumValue]
      simp only [hmin]
      rw [if_neg (by norm_num)]
      norm_num
    simp [hv]
  · norm_num

/-- C7 (amended): when `startFromMinimum` is enabled and no prior is supplied,
SEEDING sets every contribution's parameter value to **half** the lower
non-zero bound of that parameter's valid range (with `pi / q.max()`
substituted for the bound when the lower bound is zero, before halving). -/
theorem startFromMinimum_amended (params : List (ℝ × ℝ)) (numContribs : ℕ)
    (qmax : ℝ) (i : ℕ) (h : i < numContribs) :
    (mcFitSeedFromMinimum params numContribs qmax).getD i [] =
      params.map (fun p =>
        (if min p.1 p.2 = 0 then Real.pi / qmax else min p.1 p.2) * 0.5) := by
  rw [mcFitSeedFromMinimum, list_getD_replicate _ _ _ i h]
  rfl

/-- Witness for the C7 amended theorem at a concrete one-parameter model. -/
theorem startFromMinimum_amended_witness :
    (mcFitSeedFromMinimum [((2 : ℝ), 10)] 1 1).getD 0 [] =
      [(if min (2 : ℝ) 10 = 0 then Real.pi / 1 else min (2 : ℝ) 10) * 0.5] :=
  startFromMinimum_amended [((2 : ℝ), 10)] 1 1 0 (by decide)

/-! ## Input validation in `McSAS.setData` (lines 514-549) -/

/-- The validation performed by `McSAS.setData` on the supplied data arrays
(lines 529-536): `ValueError` when `Q` or `I` is absent, a logged warning
(returned here as the `Bool`) when `IError` is absent; the *values* of the
arrays — in particular the uncertainties — are never inspected.
`McSAS.checkParameters` (lines 698-720) only normalizes the lengths of
`histogramBins`/`histogramXScale` and updates parameter bounds; it raises
nothing either. -/
def setDataCheck (Q I IError : Option (List ℚ)) : Except String Bool :=
  match Q with
  | none => Except.error "No q values provided!"
  | some _ =>
    match I with
    | none => Except.error "No intensity values provided!"
    | some _ => Except.ok IError.isNone

/-- C8 counterexample: an all-zero uncertainty array passes setup without any
error being raised (the claim states a ConfigurationError is raised before
SEEDING; the code has no such check — indeed no ConfigurationError exists in
the source at all). -/
theorem setData_accepts_zero_uncertainty :
    setDataCheck (some [1]) (some [2]) (some [0, 0]) = Except.ok false := rfl

/-- C8 (amended): setup never inspects the uncertainty values: whenever `Q`,
`I` and `IError` are all supplied — whatever their contents, including an
all-zero uncertainty array — `setData` completes without raising and without
even a warning, and SEEDING proceeds.  Errors are raised only for a missing
`Q` or `I`; a missing `IError` only logs a warning. -/
theorem setData_never_checks_sigma (q i e : List ℚ) :
    setDataCheck (some q) (some i) (some e) = Except.ok false := rfl

/-! ## Aliasing of a supplied prior (`McSAS.mcFit` lines 1202-1205, 1309) -/

/-- What the local name `rset` is bound to after seeding: for a non-empty
prior, line 1205 executes `rset = prior`, binding `rset` to the *same* array
object as the caller's prior (no copy is made); with no prior, `rset` is a
freshly allocated array (line 1186/1201). -/
inductive RsetRef where
  | aliasPrior : RsetRef
  | fresh : List ParamRow → RsetRef
deriving DecidableEq

/-- The binding produced by the seeding branch of `mcFit`. -/
def mcFitRsetBinding (prior : List ParamRow) (freshRows : List ParamRow) :
    RsetRef :=
  if prior.length = 0 then RsetRef.fresh freshRows else RsetRef.aliasPrior

/-- The caller's prior array after one accepted replacement
`rset[ri], ... = rt, ...` (line 1309): the write goes through the reference,
so an aliased prior is mutated in place while a fresh `rset` leaves it
untouched. -/
def priorAfterAccept (prior : List ParamRow) (freshRows : List ParamRow)
    (ri : ℕ) (rt : ParamRow) : List ParamRow :=
  match mcFitRsetBinding prior freshRows with
  | RsetRef.aliasPrior => prior.set ri rt
  | RsetRef.fresh _ => prior

/-- C10 counterexample: with the supplied prior `[[1], [2]]`, an accepted
replacement writing trial row `[5]` at index `0` leaves the caller's prior as
`[[5], [2]] ≠ [[1], [2]]` — the prior ensemble *is* modified by the
optimizer. -/
theorem prior_mutated_by_accept :
    priorAfterAccept [[1], [2]] [] 0 [5] = [[5], [2]] ∧
    ([[5], [2]] : List ParamRow) ≠ [[1], [2]] := by
  constructor
  · decide
  · decide

/-- C10 (amended): a non-empty supplied prior is *not* protected: `mcFit`
binds its contribution storage to the prior array itself without copying, so
any accepted single-element replacement that changes the indexed row mutates
the caller's prior in place (and since `analyse` passes a view
`priors[:, :, nr % ...]` of the prior ensemble, this mutable state is shared
across repetitions).  Only when no prior is supplied does a repetition own
fresh storage. -/
theorem prior_not_preserved (prior freshRows : List ParamRow) (ri : ℕ)
    (rt : ParamRow) (hne : prior ≠ []) (hri : ri < prior.length)
    (hchange : rt ≠ prior.getD ri []) :
    priorAfterAccept prior freshRows ri rt ≠ prior := by
  have hlen : prior.length ≠ 0 := by
    intro h0
    exact hne (List.length_eq_zero.mp h0)
  rw [priorAfterAccept, mcFitRsetBinding, if_neg hlen]
  intro heq
  apply hchange
  have hset : (prior.set ri rt).getD ri [] = rt := by
    rw [List.getD_eq_getElem _ ([] : ParamRow) (by simpa using hri)]
    exact List.getElem_set_self _
  have heq2 : prior.set ri rt = prior := heq
  calc rt = (prior.set ri rt).getD ri [] := hset.symm
    _ = prior.getD ri [] := by rw [heq2]

/-- Witness for the C10 amended theorem at the counterexample's input. -/
theorem prior_not_preserved_witness :
    priorAfterAccept [[1], [2]] [] 0 [5] ≠ [[1], [2]] :=
  prior_not_preserved [[1], [2]] [] 0 [5] (by decide) (by decide) (by decide)

/-! ## Histogram observability curve (`McSAS.histogram`, lines 1601-1629) -/

/-- The `(parameter value, minimum-required value)` pairs of the contributions
falling into histogram bin `bini` of one repetition — the half-open-interval
bin mask of lines 1606-1607:
`binMask = (rset >= edges[bini]) * (rset < edges[bini + 1])`,
applied to `minReqVol[:, ri]` (column `ri` is passed here as `minReq`). -/
def binMembers (edges : List ℚ) (bini : ℕ) (rset minReq : List ℚ) :
    List (ℚ × ℚ) :=
  (rset.zip minReq).filter (fun p =>
    decide (edges.getD bini 0 ≤ p.1) && decide (p.1 < edges.getD (bini + 1) 0))

/-- The per-repetition, per-bin minimum-required value (lines 1611-1620):
`0` for an empty bin, otherwise `minReqVol[binMask, ri].mean()`.  (In exact
rational arithmetic no NaN can arise, so the NaN clamp of lines 1621-1623 —
which in the source applies to the summed fractions — is vacuous here.) -/
def minReqBinRep (edges : List ℚ) (bini : ℕ) (rset minReq : List ℚ) : ℚ :=
  let members := binMembers edges bini rset minReq
  if members.isEmpty then 0
  else (members.map Prod.snd).sum / members.length

/-- `numpy`'s `.max()` of a non-empty array (`0` stands for the error case of
an empty array, which the claims never reach). -/
def npMax : List ℚ → ℚ
  | [] => 0
  | x :: xs => xs.foldl max x

/-- The reported per-bin minimum-required curve (lines 1626-1627):
`vb = minReqVolBin[bini, :]; volHistMinReq[bini] = vb[vb < inf].max()`.
Each repetition contributes one per-bin average; in the exact-arithmetic model
every entry is a finite rational, so the `vb < inf` mask keeps all entries and
the maximum ranges over all repetitions. -/
def volHistMinReq (edges : List ℚ) (bini : ℕ)
    (reps : List (List ℚ × List ℚ)) : ℚ :=
  npMax (reps.map (fun r => minReqBinRep edges bini r.1 r.2))

/-- The initial accumulator is a lower bound of a `foldl max`. -/
theorem le_foldl_max (l : List ℚ) : ∀ a : ℚ, a ≤ l.foldl max a := by
  induction l with
  | nil => intro a; exact le_refl a
  | cons x xs ih =>
    intro a
    exact le_trans (le_max_left a x) (ih (max a x))

/-- Every member of the list is a lower bound of a `foldl max`. -/
theorem mem_le_foldl_max (l : List ℚ) : ∀ a : ℚ, ∀ b ∈ l, b ≤ l.foldl max a := by
  induction l with
  | nil => intro a b hb; exact absurd hb (by simp)
  | cons x xs ih =>
    intro a b hb
    rcases List.mem_cons.mp hb with h1 | h2
    · subst h1
      exact le_trans (le_max_right a b) (le_foldl_max xs (max a b))
    · exact ih (max a x) b h2

/-- A `foldl max` is the accumulator or one of the list members. -/
theorem foldl_max_mem (l : List ℚ) :
    ∀ a : ℚ, l.foldl max a = a ∨ l.foldl max a ∈ l := by
  induction l with
  | nil => intro a; exact Or.inl rfl
  | cons x xs ih =>
    intro a
    rcases ih (max a x) with h | h
    · rcases max_choice a x with hax | hax
      · exact Or.inl (by rw [List.foldl_cons, h, hax])
      · refine Or.inr ?_
        rw [List.foldl_cons, h, hax]
        exact List.mem_cons_self x xs
    · exact Or.inr (List.mem_cons_of_mem x h)

/-- `npMax` of a non-empty list is its greatest element and is attained. -/
theorem npMax_spec (l : List ℚ) (hl : l ≠ []) :
    (∀ b ∈ l, b ≤ npMax l) ∧ npMax l ∈ l := by
  cases l with
  | nil => exact absurd rfl hl
  | cons x xs =>
    constructor
    · intro b hb
      rcases List.mem_cons.mp hb with h1 | h2
      · subst h1; exact le_foldl_max xs b
      · exact mem_le_foldl_max xs x b h2
    · rcases foldl_max_mem xs x with h | h
      · rw [npMax, h]; exact List.mem_cons_self x xs
      · exact List.mem_cons_of_mem x h

/-- C9: for every histogram bin, (i) the per-repetition minimum-required
value is the average of the minimum-required values of the member
contributions — zero when the bin is empty (stated without division: value
times member count equals the member sum); and (ii) the reported per-bin
minimum-required curve is the maximum over all repetitions of these
per-repetition averages: it bounds every repetition's average from above and
is attained by one of them.  (NaN clamping is vacuous in exact arithmetic.) -/
theorem minReq_curve_is_max_of_rep_averages (edges : List ℚ) (bini : ℕ)
    (reps : List (List ℚ × List ℚ)) (h : reps ≠ []) :
    (∀ r ∈ reps,
        (binMembers edges bini r.1 r.2 = [] →
          minReqBinRep edges bini r.1 r.2 = 0) ∧
        (binMembers edges bini r.1 r.2 ≠ [] →
          minReqBinRep edges bini r.1 r.2 *
              (binMembers edges bini r.1 r.2).length =
            ((binMembers edges bini r.1 r.2).map Prod.snd).sum)) ∧
    (∀ r ∈ reps,
        minReqBinRep edges bini r.1 r.2 ≤ volHistMinReq edges bini reps) ∧
    (∃ r ∈ reps,
        volHistMinReq edges bini reps = minReqBinRep edges bini r.1 r.2) := by
  have hvb : reps.map (fun r => minReqBinRep edges bini r.1 r.2) ≠ [] := by
    intro hmap
    exact h (List.map_eq_nil_iff.mp hmap)
  obtain ⟨hub, hmem⟩ :=
    npMax_spec (reps.map (fun r => minReqBinRep edges bini r.1 r.2)) hvb
  refine ⟨?_, ?_, ?_⟩
  · intro r _
    constructor
    · intro hempty
      rw [minReqBinRep]
      simp only [hempty]
      rfl
    · intro hne
      rw [minReqBinRep]
      simp only [List.isEmpty_iff]
      rw [if_neg hne]
      have hpos : 0 < (binMembers edges bini r.1 r.2).length :=
        List.length_pos.mpr hne
      have hlen : ((binMembers edges bini r.1 r.2).length : ℚ) ≠ 0 := by
        exact_mod_cast Nat.pos_iff_ne_zero.mp hpos
      field_simp
  · intro r hr
    exact hub _ (List.mem_map_of_mem _ hr)
  · rcases List.mem_map.mp hmem with ⟨r, hr, hval⟩
    exact ⟨r, hr, hval.symm⟩

/-- Witness for C9: two repetitions, bin `[0, 1)` of edges `[0, 1, 2]`; the
first repetition has one member (value `1/2`, minimum-required `3`), the
second has none. -/
theorem minReq_curve_witness :
    minReqBinRep [0, 1, 2] 0 [1/2] [3] ≤
      volHistMinReq [0, 1, 2] 0 [([1/2], [3]), ([5/4], [7])] :=
  (minReq_curve_is_max_of_rep_averages [0, 1, 2] 0
      [([1/2], [3]), ([5/4], [7])] (by simp)).2.1
    ([1/2], [3]) (List.mem_cons_self _ _)

/-! ## Low-memory vs cached execution mode (`McSAS.mcFit`, lines 1225-1312)

The two code paths selected by `McSASParameters.lowMemoryFootprint` are
embedded as two state machines over the same abstract model and the same
stream of trial draws, and proved to take identical accept/reject decisions
and to maintain identical contribution sets. -/

/-- The model/solver capabilities used by `mcFit`, over an abstract parameter
type `P` and q-grid index type `ι`: `ff p` is the form-factor curve of one
contribution and `vol p` its compensated volume (`self.model.ff` /
`self.model.vol`); `solve1`/`solve2` are `optimScalingAndBackground` with
`ver = 1` / `ver = 2`, mapping the calculated curve and the scaling guess to
the new `(scale, background)` pair and the reduced chi-square (the observed
intensity and uncertainty arrays are fixed parameters of the run and live
inside these functions); `initGuess` is the initial `(sci, bgi)` guess of
lines 1248-1249, a function of the initial total intensity curve. -/
structure MCModel (P ι : Type) where
  ff : P → ι → ℝ
  vol : P → ℝ
  solve1 : (ι → ℝ) → (ℝ × ℝ) → (ℝ × ℝ) × ℝ
  solve2 : (ι → ℝ) → (ℝ × ℝ) → (ℝ × ℝ) × ℝ
  initGuess : (ι → ℝ) → ℝ × ℝ

/-- The per-contribution intensity curve `ff**2 * vol**2`
(line 1229 for the cache columns, line 1286 for a trial: `itt = ft**2 * vtt**2`). -/
def intens {P ι : Type} (M : MCModel P ι) (p : P) : ι → ℝ :=
  fun qi => (M.ff p qi) ^ 2 * (M.vol p) ^ 2

/-- The mutable state of the cached (`lowMemoryFootprint = False`) path:
contribution rows, their volumes, the per-contribution intensity cache
`iset`, and the running totals `it`, `vst` with the current scaling pair and
chi-square. -/
structure CachedState (P ι : Type) where
  rset : List P
  vset : List ℝ
  iset : List (ι → ℝ)
  it : ι → ℝ
  vst : ℝ
  sc : ℝ × ℝ
  conval : ℝ

/-- The mutable state of the low-memory (`lowMemoryFootprint = True`) path:
as `CachedState` but with no intensity cache. -/
structure LowMemState (P ι : Type) where
  rset : List P
  vset : List ℝ
  it : ι → ℝ
  vst : ℝ
  sc : ℝ × ℝ
  conval : ℝ

/-- Forgetting the intensity cache. -/
def projCached {P ι : Type} (s : CachedState P ι) : LowMemState P ι :=
  ⟨s.rset, s.vset, s.it, s.vst, s.sc, s.conval⟩

/-- Initial total intensity of the cached path (lines 1227-1233):
`iset = ffset**2 * outer(ones, vset**2); it = iset.sum(axis = 1)`. -/
noncomputable def cachedIt0 {P ι : Type} (M : MCModel P ι) (rset0 : List P) :
    ι → ℝ :=
  (rset0.map (intens M)).sum

/-- Initial total intensity of the low-memory path (lines 1234-1240):
`it = 0; for i in arange(rset.shape[0]): it += ff(rset[i])**2 * vset[i]**2`,
with `vset = self.model.vol(rset)`. -/
noncomputable def lowMemIt0 {P ι : Type} [Inhabited P] (M : MCModel P ι)
    (rset0 : List P) : ι → ℝ :=
  ((List.range rset0.length).map (fun i =>
    fun qi => (M.ff (rset0.getD i default) qi) ^ 2 *
      ((rset0.map M.vol).getD i 0) ^ 2)).sum

/-- The index-driven accumulation of the low-memory path computes the same
initial total intensity as the cache-column sum of the cached path. -/
theorem lowMemIt0_eq_cachedIt0 {P ι : Type} [Inhabited P] (M : MCModel P ι) :
    ∀ rset0 : List P, lowMemIt0 M rset0 = cachedIt0 M rset0 := by
  intro rset0
  induction rset0 with
  | nil => rfl
  | cons x xs ih =>
    rw [lowMemIt0, cachedIt0] at ih ⊢
    simp only [List.length_cons, List.range_succ_eq_map, List.map_cons,
      List.map_map, List.sum_cons, List.getD_cons_zero, Function.comp_def,
      List.getD_cons_succ]
    rw [← ih]
    rfl

/-- SEEDING of the cached path after the initial `rset` is fixed
(lines 1224-1256): volumes, intensity cache, totals, the smeared initial
intensity and the two-pass (`ver = 1` then `ver = 2`) scaling solve. -/
noncomputable def cachedInit {P ι : Type} (M : MCModel P ι) (rset0 : List P) :
    CachedState P ι :=
  let vset := rset0.map M.vol
  let iset := rset0.map (intens M)
  let it0 := smear (cachedIt0 M rset0)
  let vst := vstTotal vset
  let p1 := M.solve1 (fun qi => it0 qi / vst) (M.initGuess it0)
  let p2 := M.solve2 (fun qi => it0 qi / vst) p1.1
  ⟨rset0, vset, iset, it0, vst, p2.1, p2.2⟩

/-- SEEDING of the low-memory path (identical but for how `it` is
accumulated, lines 1234-1241, and the absence of the cache). -/
noncomputable def lowMemInit {P ι : Type} [Inhabited P] (M : MCModel P ι)
    (rset0 : List P) : LowMemState P ι :=
  let vset := rset0.map M.vol
  let it0 := smear (lowMemIt0 M rset0)
  let vst := vstTotal vset
  let p1 := M.solve1 (fun qi => it0 qi / vst) (M.initGuess it0)
  let p2 := M.solve2 (fun qi => it0 qi / vst) p1.1
  ⟨rset0, vset, it0, vst, p2.1, p2.2⟩

/-- One ITERATING step of the cached path (lines 1283-1312) on trial draw
`rt` at round-robin index `ri`, returning the new state and whether the move
was accepted:

```
itt   = ft**2 * vtt**2
itest = it - iset[:, ri] + itt          (then smear)
vstest = (sqrt(vst) - vset[ri])**2 + vtt**2
sct, convalt = optimScalingAndBackground(intObs, itest/vstest, error, sc)
if convalt < conval: commit rset[ri], sc, conval, it, vset[ri], vst, iset[:, ri]
```
-/
noncomputable def cachedStepA {P ι : Type} (M : MCModel P ι)
    (s : CachedState P ι) (rt : P) (ri : ℕ) : CachedState P ι × Bool :=
  let itt := intens M rt
  let vtt := M.vol rt
  let itest := smear (fun qi => s.it qi - s.iset.getD ri 0 qi + itt qi)
  let vstest := vstestUpdate s.vst (s.vset.getD ri 0) vtt
  let res := M.solve2 (fun qi => itest qi / vstest) s.sc
  if res.2 < s.conval then
    (⟨s.rset.set ri rt, s.vset.set ri vtt, s.iset.set ri itt,
      itest, vstest, res.1, res.2⟩, true)
  else (s, false)

/-- One ITERATING step of the low-memory path (lines 1294-1297 replace the
cache column by an on-demand recomputation
`io = ff(rset[ri])**2 * vset[ri]**2`; the rest of the step is shared). -/
noncomputable def lowMemStepA {P ι : Type} [Inhabited P] (M : MCModel P ι)
    (s : LowMemState P ι) (rt : P) (ri : ℕ) : LowMemState P ι × Bool :=
  let itt := intens M rt
  let vtt := M.vol rt
  let io := fun qi => (M.ff (s.rset.getD ri default) qi) ^ 2 *
    (s.vset.getD ri 0) ^ 2
  let itest := smear (fun qi => s.it qi - io qi + itt qi)
  let vstest := vstestUpdate s.vst (s.vset.getD ri 0) vtt
  let res := M.solve2 (fun qi => itest qi / vstest) s.sc
  if res.2 < s.conval then
    (⟨s.rset.set ri rt, s.vset.set ri vtt, itest, vstest, res.1, res.2⟩, true)
  else (s, false)

/-- The cached path after `k` iterations: the round-robin index of iteration
`k` is `k % numContribs` (`ri = 0` initially, `ri = (ri + 1) % numContribs`
at line 1346), and `rts k` is iteration `k`'s trial draw
`self.model.randUniform()`. -/
noncomputable def cachedRun {P ι : Type} (M : MCModel P ι) (rset0 : List P)
    (rts : ℕ → P) : ℕ → CachedState P ι
  | 0 => cachedInit M rset0
  | k + 1 =>
    (cachedStepA M (cachedRun M rset0 rts k) (rts k) (k % rset0.length)).1

/-- The low-memory path after `k` iterations. -/
noncomputable def lowMemRun {P ι : Type} [Inhabited P] (M : MCModel P ι)
    (rset0 : List P) (rts : ℕ → P) : ℕ → LowMemState P ι
  | 0 => lowMemInit M rset0
  | k + 1 =>
    (lowMemStepA M (lowMemRun M rset0 rts k) (rts k) (k % rset0.length)).1

/-- The accept/reject decision of the cached path at iteration `k`. -/
noncomputable def cachedAcceptedAt {P ι : Type} (M : MCModel P ι)
    (rset0 : List P) (rts : ℕ → P) (k : ℕ) : Bool :=
  (cachedStepA M (cachedRun M rset0 rts k) (rts k) (k % rset0.length)).2

/-- The accept/reject decision of the low-memory path at iteration `k`. -/
noncomputable def lowMemAcceptedAt {P ι : Type} [Inhabited P] (M : MCModel P ι)
    (rset0 : List P) (rts : ℕ → P) (k : ℕ) : Bool :=
  (lowMemStepA M (lowMemRun M rset0 rts k) (rts k) (k % rset0.length)).2

/-- Cache coherence: the intensity cache column of every live contribution
is the intensity recomputed from its current row and cached volume — the
data the low-memory path recomputes on demand. -/
def cacheCoherent {P ι : Type} [Inhabited P] (M : MCModel P ι)
    (s : CachedState P ι) : Prop :=
  s.iset.length = s.rset.length ∧ s.vset.length = s.rset.length ∧
  ∀ i, i < s.rset.length →
    s.iset.getD i 0 =
      fun qi => (M.ff (s.rset.getD i default) qi) ^ 2 * (s.vset.getD i 0) ^ 2

/-- `getD` after `set` at the written index. -/
theorem list_getD_set_self {α : Type _} (l : List α) (i : ℕ)
    (h : i < l.length) (a d : α) : (l.set i a).getD i d = a := by
  rw [List.getD_eq_getElem _ d (by simpa using h)]
  exact List.getElem_set_self _

/-- `getD` after `set` at another index. -/
theorem list_getD_set_ne {α : Type _} (l : List α) (i j : ℕ) (hij : i ≠ j)
    (a d : α) : (l.set i a).getD j d = l.getD j d := by
  by_cases hj : j < l.length
  · rw [List.getD_eq_getElem _ d (by simpa using hj),
      List.getD_eq_getElem _ d hj]
    exact List.getElem_set_ne hij _
  · rw [List.getD_eq_default _ d (by simpa using Nat.le_of_not_lt hj),
      List.getD_eq_default _ d (Nat.le_of_not_lt hj)]

/-- `getD` through a `map`, below the length. -/
theorem list_getD_map_of_lt {α β : Type _} (f : α → β) (l : List α) (i : ℕ)
    (h : i < l.length) (d : β) (d2 : α) :
    (l.map f).getD i d = f (l.getD i d2) := by
  rw [List.getD_eq_getElem _ d (by simpa using h),
    List.getD_eq_getElem _ d2 h, List.getElem_map]

/-- The seeded cached state is cache-coherent. -/
theorem cachedInit_coherent {P ι : Type} [Inhabited P] (M : MCModel P ι)
    (rset0 : List P) : cacheCoherent M (cachedInit M rset0) := by
  refine ⟨by simp [cachedInit], by simp [cachedInit], ?_⟩
  intro i hi
  have hi0 : i < rset0.length := by simpa [cachedInit] using hi
  show (rset0.map (intens M)).getD i 0 =
    fun qi => (M.ff (rset0.getD i default) qi) ^ 2 *
      ((rset0.map M.vol).getD i 0) ^ 2
  rw [list_getD_map_of_lt (intens M) rset0 i hi0 0 default,
    list_getD_map_of_lt M.vol rset0 i hi0 0 default]
  rfl

/-- A cached ITERATING step preserves cache coherence. -/
theorem cachedStepA_coherent {P ι : Type} [Inhabited P] (M : MCModel P ι)
    (s : CachedState P ι) (hs : cacheCoherent M s) (rt : P) (ri : ℕ) :
    cacheCoherent M (cachedStepA M s rt ri).1 := by
  obtain ⟨hlen1, hlen2, hco⟩ := hs
  rw [cachedStepA]
  split
  · refine ⟨?_, ?_, ?_⟩
    · show (s.iset.set ri (intens M rt)).length = (s.rset.set ri rt).length
      simp [hlen1]
    · show (s.vset.set ri (M.vol rt)).length = (s.rset.set ri rt).length
      simp [hlen2]
    · intro i hi
      have hi0 : i < s.rset.length := by
        have hl : i < (s.rset.set ri rt).length := hi
        simpa using hl
      by_cases hiri : i = ri
      · subst hiri
        show (s.iset.set i (intens M rt)).getD i 0 =
          fun qi => (M.ff ((s.rset.set i rt).getD i default) qi) ^ 2 *
            (((s.vset.set i (M.vol rt))).getD i 0) ^ 2
        rw [list_getD_set_self s.iset i (by omega) _ 0,
          list_getD_set_self s.rset i hi0 rt default,
          list_getD_set_self s.vset i (by omega) _ 0]
        rfl
      · show (s.iset.set ri (intens M rt)).getD i 0 =
          fun qi => (M.ff ((s.rset.set ri rt).getD i default) qi) ^ 2 *
            (((s.vset.set ri (M.vol rt))).getD i 0) ^ 2
        rw [list_getD_set_ne s.iset ri i (fun hh => hiri hh.symm) _ 0,
          list_getD_set_ne s.rset ri i (fun hh => hiri hh.symm) rt default,
          list_getD_set_ne s.vset ri i (fun hh => hiri hh.symm) _ 0]
        exact hco i hi0
  · exact ⟨hlen1, hlen2, hco⟩

/-- Splitting a projected pair of an `if` into an `if` of projected pairs. -/
theorem proj_pair_ite {P ι : Type} (c : Prop) [Decidable c]
    (x y : CachedState P ι × Bool) :
    (projCached (ite c x y).1, (ite c x y).2) =
      ite c (projCached x.1, x.2) (projCached y.1, y.2) := by
  by_cases h : c
  · rw [if_pos h, if_pos h]
  · rw [if_neg h, if_neg h]

/-- On a cache-coherent state, the low-memory step is the projection of the
cached step and takes the same accept/reject decision. -/
theorem lowMemStepA_proj {P ι : Type} [Inhabited P] (M : MCModel P ι)
    (s : CachedState P ι) (hs : cacheCoherent M s) (rt : P) (ri : ℕ) :
    lowMemStepA M (projCached s) rt ri =
      (projCached (cachedStepA M s rt ri).1, (cachedStepA M s rt ri).2) := by
  obtain ⟨hlen1, hlen2, hco⟩ := hs
  have hio : (fun qi => (M.ff (s.rset.getD ri default) qi) ^ 2 *
      (s.vset.getD ri 0) ^ 2) = s.iset.getD ri 0 := by
    by_cases hri : ri < s.rset.length
    · exact (hco ri hri).symm
    · have h1 : s.iset.getD ri 0 = 0 :=
        List.getD_eq_default _ _ (by omega)
      have h2 : s.vset.getD ri 0 = 0 :=
        List.getD_eq_default _ _ (by omega)
      rw [h1, h2]
      funext qi
      simp
  have hio2 : ∀ qi, (M.ff (s.rset.getD ri default) qi) ^ 2 *
      (s.vset.getD ri 0) ^ 2 = s.iset.getD ri 0 qi :=
    fun qi => congrFun hio qi
  rw [lowMemStepA, cachedStepA, proj_pair_ite]
  dsimp only [projCached]
  simp only [hio2]

/-- The two execution modes stay in lock-step: after any number of
iterations the low-memory state is the projection of the cached state, and
the cached state stays cache-coherent. -/
theorem cachedRun_inv {P ι : Type} [Inhabited P] (M : MCModel P ι)
    (rset0 : List P) (rts : ℕ → P) (k : ℕ) :
    cacheCoherent M (cachedRun M rset0 rts k) ∧
      lowMemRun M rset0 rts k = projCached (cachedRun M rset0 rts k) := by
  induction k with
  | zero =>
    refine ⟨cachedInit_coherent M rset0, ?_⟩
    show lowMemInit M rset0 = projCached (cachedInit M rset0)
    rw [lowMemInit, cachedInit, projCached]
    dsimp only
    rw [lowMemIt0_eq_cachedIt0]
  | succ k ih =>
    obtain ⟨hco, hproj⟩ := ih
    constructor
    · exact cachedStepA_coherent M _ hco _ _
    · show (lowMemStepA M (lowMemRun M rset0 rts k) _ _).1 = _
      rw [hproj, lowMemStepA_proj M _ hco]
      rfl

/-- C6: given identical inputs (model, seeded contribution set) and identical
random draws (the trial stream `rts`), the low-memory execution mode makes
exactly the same accept/reject decision as the cached mode at every
iteration, and the two modes hold identical contribution sets (and volumes,
totals, scaling and chi-square state) after every iteration — in particular
the same final contribution set. -/
theorem lowMemoryFootprint_equiv {P ι : Type} [Inhabited P] (M : MCModel P ι)
    (rset0 : List P) (rts : ℕ → P) (k : ℕ) :
    lowMemAcceptedAt M rset0 rts k = cachedAcceptedAt M rset0 rts k ∧
      lowMemRun M rset0 rts k = projCached (cachedRun M rset0 rts k) ∧
      (lowMemRun M rset0 rts k).rset = (cachedRun M rset0 rts k).rset := by
  obtain ⟨hco, hproj⟩ := cachedRun_inv M rset0 rts k
  refine ⟨?_, hproj, by rw [hproj]; rfl⟩
  rw [lowMemAcceptedAt, cachedAcceptedAt, hproj,
    lowMemStepA_proj M _ hco]
